import Mathlib

/-!
Shallow embedding of the refc reference-counting library (src/refc.h,
compiled with REFC_H_DEBUG and REFC_H_IMPLEMENTATION, as tests.c does).

Pointers are modelled as natural-number identifiers into explicit
association lists held in a `Heap`; the C `NULL` pointer is `Option.none`.
`size_t` arithmetic is `Nat` arithmetic modulo `W = 2 ^ 64`.  Undefined
behaviour (dereferencing `NULL`, touching a freed or never-allocated
object) and exhaustion of the recursion fuel surface as `Except.error`.
The system allocator is an oracle: each allocating operation takes a
`Bool` saying whether its `malloc` call succeeds.
-/

set_option autoImplicit false

/-- Width of `size_t`: the reference count is a `size_t`, so all
counter arithmetic is modulo `W`. -/
def W : Nat := 2 ^ 64

/-- Errors of the embedding: `outOfFuel` means the recursion fuel ran out
(used to witness divergence), the other two are C undefined behaviour. -/
inductive CErr where
  | outOfFuel
  | nullDeref
  | useAfterFree
  deriving DecidableEq, Repr

/-- Observable events, newest first: destructor invocations, `free` of a
whole block, `free` of a single list node.  `refc_release` logs them in
the order the C code performs them. -/
inductive Event where
  | dtorCall (f : Nat)
  | freeBlock (b : Nat)
  | freeNode (n : Nat)
  deriving DecidableEq, Repr

/-- struct ListNode (refc.h lines 106-109): `next` is a plain pointer to
the next node, `value` is the `_Atomic` child pointer, `none` once the
node has been tombstoned by `refc_unlink`. -/
structure ListNode where
  next : Option Nat
  value : Option Nat
  deriving DecidableEq, Repr

/-- struct refc_ref (refc.h lines 112-126): the atomic reference count,
the optional destructor (identified by a number standing for the C
function pointer), and the debug `links` list head. The payload bytes
carry no semantics here. -/
structure refc_ref where
  reference_count : Nat
  destructor : Option Nat
  links : Option Nat
  deriving DecidableEq, Repr

/-- The mutable store: live blocks and live list nodes keyed by their
identifiers, allocation counters supplying fresh identifiers, and the
event log (newest first). -/
structure Heap where
  blocks : List (Nat × refc_ref)
  nodes : List (Nat × ListNode)
  nextBlockId : Nat
  nextNodeId : Nat
  log : List Event
  deriving DecidableEq, Repr

def emptyHeap : Heap := ⟨[], [], 0, 0, []⟩

/-- First-match association-list lookup (a pointer dereference). -/
def lookupL {α : Type} : List (Nat × α) → Nat → Option α
  | [], _ => none
  | (k, v) :: rest, i => if k = i then some v else lookupL rest i

/-- Update every entry with the given key in place (a store through a
pointer; keys are unique in every heap built by the operations). -/
def mapAt {α : Type} (l : List (Nat × α)) (i : Nat) (f : α → α) : List (Nat × α) :=
  l.map (fun e => if e.1 = i then (e.1, f e.2) else e)

/-- Drop every entry with the given key (a `free`). -/
def eraseKey {α : Type} : List (Nat × α) → Nat → List (Nat × α)
  | [], _ => []
  | (k, v) :: rest, i => if k = i then eraseKey rest i else (k, v) :: eraseKey rest i

/-- Drop every entry whose key is in `ids` (freeing a set of nodes). -/
def removeKeys {α : Type} : List (Nat × α) → List Nat → List (Nat × α)
  | [], _ => []
  | (k, v) :: rest, ids =>
    if k ∈ ids then removeKeys rest ids else (k, v) :: removeKeys rest ids

/-- refc_allocate_dtor (refc.h lines 132-145): ask the allocator (`ok`),
on success initialise the header with count 1, the destructor and an
empty `links` list and return the fresh handle; on failure return `NULL`
with the heap untouched.  The payload size does not affect the header. -/
def refc_allocate_dtor (s : Heap) (_size : Nat) (destructor : Option Nat)
    (ok : Bool) : Option Nat × Heap :=
  if ok then
    let b := s.nextBlockId
    (some b,
      { s with
        blocks := (b, ⟨1, destructor, none⟩) :: s.blocks
        nextBlockId := b + 1 })
  else
    (none, s)

/-- refc_allocate (refc.h lines 128-130): delegates with a NULL destructor. -/
def refc_allocate (s : Heap) (size : Nat) (ok : Bool) : Option Nat × Heap :=
  refc_allocate_dtor s size none ok

/-- refc_retain (refc.h lines 147-149): `atomic_fetch_add(&count, 1)`. -/
def refc_retain (s : Heap) (r : Nat) : Except CErr Heap :=
  match lookupL s.blocks r with
  | none => .error .useAfterFree
  | some _ =>
    .ok { s with
          blocks := mapAt s.blocks r
            (fun bl => { bl with reference_count := (bl.reference_count + 1) % W }) }

/-- The node identifiers along a `next` chain, head first: the traversal
orders of the freeing loop in `refc_release` (lines 160-166). -/
def chainCollect (s : Heap) : Nat → Option Nat → Except CErr (List Nat)
  | _, none => .ok []
  | 0, some _ => .error .outOfFuel
  | fuel + 1, some i =>
    match lookupL s.nodes i with
    | none => .error .useAfterFree
    | some n =>
      match chainCollect s fuel n.next with
      | .ok rest => .ok (i :: rest)
      | .error e => .error e

/-- refc_release (refc.h lines 151-169): `atomic_fetch_sub(&count, 1)`,
then reload the counter; if it is still positive, stop.  Otherwise call
the destructor if present, free every node of the `links` list head
first, and free the block.  Sequentially the reload on line 153 reads
back exactly the decremented value stored by line 152. -/
def refc_release (s : Heap) (r : Nat) (fuel : Nat) : Except CErr Heap :=
  match lookupL s.blocks r with
  | none => .error .useAfterFree
  | some b =>
    let nc := (b.reference_count + (W - 1)) % W
    if 0 < nc then
      .ok { s with
            blocks := mapAt s.blocks r (fun bl => { bl with reference_count := nc }) }
    else
      match chainCollect s fuel b.links with
      | .error e => .error e
      | .ok ids =>
        .ok { s with
              blocks := eraseKey s.blocks r
              nodes := removeKeys s.nodes ids
              log := Event.freeBlock r ::
                ((ids.map Event.freeNode).reverse ++
                  ((b.destructor.map Event.dtorCall).toList ++ s.log)) }

/-- find_in_lists (refc.h lines 176-188): walk the node chain from
`head`; for each node load its `value` and compare it with `match`
(a real block, so a tombstoned `NULL` value never compares equal), then
recurse into `value->links` — when `value` is `NULL` that recursion
dereferences the null pointer — and finally move to `next`. -/
def find_in_lists (s : Heap) (m : Nat) : Nat → Option Nat → Except CErr Bool
  | _, none => .ok false
  | 0, some _ => .error .outOfFuel
  | fuel + 1, some i =>
    match lookupL s.nodes i with
    | none => .error .useAfterFree
    | some node =>
      match node.value with
      | none => .error .nullDeref
      | some v =>
        if v = m then .ok true
        else
          match lookupL s.blocks v with
          | none => .error .useAfterFree
          | some blk =>
            match find_in_lists s m fuel blk.links with
            | .ok true => .ok true
            | .ok false => find_in_lists s m fuel node.next
            | .error e => .error e

/-- refc_link (refc.h lines 190-212): search the graph hanging off
`child->links` for `parent`; if found report 0 with nothing changed.
Otherwise `malloc` a node (the `ok` oracle); on failure report 0 with
nothing changed.  On success store `child` into the node, link it in
front of `parent->links` (the CAS loop, which sequentially commits at
once) and report 1. -/
def refc_link (s : Heap) (parent child : Nat) (ok : Bool) (fuel : Nat) :
    Except CErr (Nat × Heap) :=
  match lookupL s.blocks child with
  | none => .error .useAfterFree
  | some cb =>
    match find_in_lists s parent fuel cb.links with
    | .error e => .error e
    | .ok true => .ok (0, s)
    | .ok false =>
      if ok then
        match lookupL s.blocks parent with
        | none => .error .useAfterFree
        | some pb =>
          let nid := s.nextNodeId
          .ok (1,
            { s with
              blocks := mapAt s.blocks parent (fun bl => { bl with links := some nid })
              nodes := (nid, ⟨pb.links, some child⟩) :: s.nodes
              nextNodeId := nid + 1 })
      else .ok (0, s)

/-- The scanning loop of refc_unlink (refc.h lines 222-228): find the
first node whose `value` equals `child`, store `NULL` into it and report
1; report 0 after falling off the list. -/
def unlinkScan (s : Heap) (child : Nat) : Nat → Option Nat → Except CErr (Nat × Heap)
  | _, none => .ok (0, s)
  | 0, some _ => .error .outOfFuel
  | fuel + 1, some i =>
    match lookupL s.nodes i with
    | none => .error .useAfterFree
    | some n =>
      if n.value = some child then
        .ok (1, { s with nodes := mapAt s.nodes i (fun nd => { nd with value := none }) })
      else unlinkScan s child fuel n.next

/-- refc_unlink (refc.h lines 214-230): scan `parent->links` for the
first node holding `child` and tombstone it. -/
def refc_unlink (s : Heap) (parent child : Nat) (fuel : Nat) :
    Except CErr (Nat × Heap) :=
  match lookupL s.blocks parent with
  | none => .error .useAfterFree
  | some pb => unlinkScan s child fuel pb.links

/-- Iterated refc_retain. -/
def retainN (s : Heap) (r : Nat) : Nat → Except CErr Heap
  | 0 => .ok s
  | k + 1 =>
    match refc_retain s r with
    | .ok t => retainN t r k
    | .error e => .error e

/-- Iterated refc_release (each call with the given fuel). -/
def releaseN (s : Heap) (r : Nat) (fuel : Nat) : Nat → Except CErr Heap
  | 0 => .ok s
  | k + 1 =>
    match refc_release s r fuel with
    | .ok t => releaseN t r fuel k
    | .error e => .error e

/-!
Interleaving model of `refc_release` for one block with no destructor
argument races: the body of `refc_release` (refc.h lines 151-155) splits
into two atomic steps, the `atomic_fetch_sub` on line 152 (whose return
value the code discards) and the separate `atomic_load` on line 153
followed by thread-local control flow — the comparison, and on zero the
destructor call and the frees, which touch no shared atomic.  A schedule
is a list of booleans choosing which of two threads performs its next
step.
-/

/-- Program counter of one thread running `refc_release`'s body. -/
inductive RPhase where
  | start
  | afterSub
  | finished
  deriving DecidableEq, Repr

/-- Shared state of the interleaving model: the atomic counter and how
many times the destructor ran and the block was freed. -/
structure RcState where
  count : Nat
  dtorRuns : Nat
  blockFrees : Nat
  deriving DecidableEq, Repr

/-- One atomic step of a thread inside `refc_release`: first the
`atomic_fetch_sub` (line 152), then the `atomic_load` (line 153) with
everything the loaded value determines (lines 154-168). -/
def releaseStep (c : RcState) : RPhase → RcState × RPhase
  | .start => ({ c with count := (c.count + (W - 1)) % W }, .afterSub)
  | .afterSub =>
    if 0 < c.count then (c, .finished)
    else ({ c with dtorRuns := c.dtorRuns + 1, blockFrees := c.blockFrees + 1 }, .finished)
  | .finished => (c, .finished)

/-- Run a schedule over two threads, `false` stepping the first and
`true` the second. -/
def runTwo : List Bool → RcState × RPhase × RPhase → RcState × RPhase × RPhase
  | [], st => st
  | b :: rest, (c, p0, p1) =>
    if b then
      let (c1, q) := releaseStep c p1
      runTwo rest (c1, p0, q)
    else
      let (c1, q) := releaseStep c p0
      runTwo rest (c1, q, p1)

/-!
Concrete scenario heaps, built by running the operations.  The
projection helpers strip the `Except` wrapper so that successive states
can be named; every theorem about a scenario also asserts the exact
`Except` result of the step, so the projections never hide a failure.
-/

/-- State after a successful allocation (projection helper). -/
def allocS (s : Heap) (size : Nat) (d : Option Nat) : Heap :=
  (refc_allocate_dtor s size d true).2

/-- State after a `refc_link` call (projection helper; on an error the
input state is kept, and no theorem relies on that branch). -/
def linkS (s : Heap) (p c : Nat) : Heap :=
  match refc_link s p c true 99 with
  | .ok (_, t) => t
  | .error _ => s

/-- State after a `refc_unlink` call (projection helper). -/
def unlinkS (s : Heap) (p c : Nat) : Heap :=
  match refc_unlink s p c 99 with
  | .ok (_, t) => t
  | .error _ => s

/-- Blocks 0 and 1 freshly allocated (512-byte payloads, as in tests.c,
no destructors). -/
def heap2 : Heap := allocS (allocS emptyHeap 512 none) 512 none

/-- Blocks 0, 1, 2 freshly allocated. -/
def heap3 : Heap := allocS heap2 512 none

/-- Blocks 0, 1, 2, 3 freshly allocated. -/
def heap4 : Heap := allocS heap3 512 none

/-- heap4 with the edges 0→1, 1→2 and 3→2 linked. -/
def heapChain : Heap := linkS (linkS (linkS heap4 0 1) 1 2) 3 2

/-- Blocks 0, 1, 2 with the edge 0→1 linked and then unlinked: block 0's
list holds one tombstoned node. -/
def heapTomb : Heap := unlinkS (linkS heap3 0 1) 0 1

/-- Blocks 0 and 1, with the self-edge 0→0 accepted by `refc_link`. -/
def heapSelf : Heap := linkS heap2 0 0

/-- Iterated refc_link of the same pair, collecting the result codes. -/
def linkN (s : Heap) (p c : Nat) (fuel : Nat) : Nat → Except CErr (List Nat × Heap)
  | 0 => .ok ([], s)
  | k + 1 =>
    match refc_link s p c true fuel with
    | .ok (r, t) =>
      match linkN t p c fuel k with
      | .ok (rs, u) => .ok (r :: rs, u)
      | .error e => .error e
    | .error e => .error e

/-- Iterated refc_unlink of the same pair, collecting the result codes. -/
def unlinkN (s : Heap) (p c : Nat) (fuel : Nat) : Nat → Except CErr (List Nat × Heap)
  | 0 => .ok ([], s)
  | m + 1 =>
    match refc_unlink s p c fuel with
    | .ok (r, t) =>
      match unlinkN t p c fuel m with
      | .ok (rs, u) => .ok (r :: rs, u)
      | .error e => .error e
    | .error e => .error e

/-- The node chain hanging off a list head, as `(identifier, node)`
pairs, head first; `none` when the fuel runs out or a node is dangling. -/
def chainOf (s : Heap) : Nat → Option Nat → Option (List (Nat × ListNode))
  | _, none => some []
  | 0, some _ => none
  | fuel + 1, some i =>
    match lookupL s.nodes i with
    | none => none
    | some n =>
      match chainOf s fuel n.next with
      | some rest => some ((i, n) :: rest)
      | none => none

/-- A list of `(identifier, node)` pairs is the exact chain hanging off
the head pointer `h` in the nodes store `ns` (the chain must end at the
null pointer). -/
def isChain (ns : List (Nat × ListNode)) : Option Nat → List (Nat × ListNode) → Prop
  | h, [] => h = none
  | h, (i, n) :: L => h = some i ∧ lookupL ns i = some n ∧ isChain ns n.next L

/-- Tombstone a node entry (what a successful `refc_unlink` does to the
matched node). -/
def tombstoned (e : Nat × ListNode) : Nat × ListNode := (e.1, { e.2 with value := none })

/-!
Lookup and update lemmas for the association lists.
-/

theorem lookupL_cons {α : Type} (k : Nat) (v : α) (rest : List (Nat × α)) (j : Nat) :
    lookupL ((k, v) :: rest) j = if k = j then some v else lookupL rest j := rfl

theorem mapAt_cons {α : Type} (k : Nat) (v : α) (rest : List (Nat × α)) (i : Nat)
    (f : α → α) :
    mapAt ((k, v) :: rest) i f =
      (if k = i then (k, f v) else (k, v)) :: mapAt rest i f := by
  by_cases h : k = i <;> simp [mapAt, h]

theorem lookupL_mapAt {α : Type} (l : List (Nat × α)) (i j : Nat) (f : α → α) :
    lookupL (mapAt l i f) j = if i = j then (lookupL l j).map f else lookupL l j := by
  induction l with
  | nil =>
    simp only [mapAt, List.map, lookupL]
    split <;> rfl
  | cons e rest ih =>
    obtain ⟨k, v⟩ := e
    rw [mapAt_cons]
    by_cases hki : k = i
    · subst hki
      by_cases hkj : k = j
      · subst hkj
        simp [lookupL_cons, ih]
      · simp [lookupL_cons, hkj, ih]
    · by_cases hkj : k = j
      · subst hkj
        have hij : ¬ i = k := fun h => hki h.symm
        simp [lookupL_cons, hki, hij]
      · simp [lookupL_cons, hki, hkj, ih]

theorem lookupL_mapAt_self {α : Type} (l : List (Nat × α)) (i : Nat) (f : α → α) :
    lookupL (mapAt l i f) i = (lookupL l i).map f := by
  simp [lookupL_mapAt]

theorem lookupL_mapAt_ne {α : Type} (l : List (Nat × α)) (i j : Nat) (f : α → α)
    (h : i ≠ j) : lookupL (mapAt l i f) j = lookupL l j := by
  simp [lookupL_mapAt, h]

theorem lookupL_eraseKey {α : Type} (l : List (Nat × α)) (i j : Nat) :
    lookupL (eraseKey l i) j = if i = j then none else lookupL l j := by
  induction l with
  | nil =>
    simp only [eraseKey, lookupL]
    split <;> rfl
  | cons e rest ih =>
    obtain ⟨k, v⟩ := e
    by_cases hki : k = i
    · subst hki
      by_cases hkj : k = j
      · subst hkj
        simp [eraseKey, lookupL_cons, ih]
      · simp [eraseKey, lookupL_cons, hkj, ih]
    · by_cases hkj : k = j
      · subst hkj
        have hij : ¬ i = k := fun h => hki h.symm
        simp [eraseKey, lookupL_cons, hki, hij]
      · simp [eraseKey, lookupL_cons, hki, hkj, ih]

theorem removeKeys_nil {α : Type} (l : List (Nat × α)) : removeKeys l [] = l := by
  induction l with
  | nil => rfl
  | cons e rest ih => obtain ⟨k, v⟩ := e; simp [removeKeys, ih]

/-!
Claim theorems.
-/

/-- C8: refc_allocate_dtor returns NULL with the heap unchanged when the
allocator fails (no partial state); on success it returns a fresh handle
whose reference count is 1, whose stored destructor is the argument and
whose links list is empty, logging nothing; and refc_allocate is the
same operation with an absent destructor, for every size. -/
theorem C8_allocate_initialises (s : Heap) (sz : Nat) (d : Option Nat) (ok : Bool) :
    refc_allocate_dtor s sz d false = (none, s) ∧
    (refc_allocate_dtor s sz d true).1 = some s.nextBlockId ∧
    lookupL (refc_allocate_dtor s sz d true).2.blocks s.nextBlockId =
      some ⟨1, d, none⟩ ∧
    (refc_allocate_dtor s sz d true).2.log = s.log ∧
    refc_allocate s sz ok = refc_allocate_dtor s sz none ok := by
  refine ⟨rfl, rfl, ?_, rfl, rfl⟩
  simp [refc_allocate_dtor, lookupL_cons]

/-- C4: contrary to the claim, refc_link does not reject the self-edge:
on a freshly allocated block (empty links list) the call
refc_link(b, b) returns 1 and installs a node whose value is b itself,
a directed cycle of length one. -/
theorem C4_self_link_accepted :
    refc_link (allocS emptyHeap 512 none) 0 0 true 9 =
      .ok (1, linkS (allocS emptyHeap 512 none) 0 0) ∧
    lookupL (linkS (allocS emptyHeap 512 none) 0 0).nodes 0 =
      some ⟨none, some 0⟩ := ⟨rfl, rfl⟩

/-- C5: contrary to the claim, the zero-check of refc_release is a
separate atomic_load (refc.h line 153), not the post-decrement value of
the fetch_sub (line 152, whose result is discarded); with a count of 2
and two concurrent releases the interleaving sub, sub, load, load makes
both threads observe 0, so the destructor runs twice and the block is
freed twice. -/
theorem C5_release_race_double_destroy :
    runTwo [false, true, false, true] (⟨2, 0, 0⟩, .start, .start) =
      (⟨0, 2, 2⟩, .finished, .finished) := rfl

/-- C2: contrary to the claim, the depth-first search of refc_link does
not skip tombstoned nodes: after link(0,1) then unlink(0,1) block 0's
list holds a node whose value is NULL, and refc_link(2, 0) dereferences
that NULL value (find_in_lists reads value->links at refc.h line 182)
instead of returning a verdict. -/
theorem C2_find_in_lists_dereferences_tombstone :
    refc_link heap3 0 1 true 9 = .ok (1, linkS heap3 0 1) ∧
    refc_unlink (linkS heap3 0 1) 0 1 9 = .ok (1, heapTomb) ∧
    lookupL heapTomb.nodes 0 = some ⟨none, none⟩ ∧
    refc_link heapTomb 2 0 true 9 = .error .nullDeref := ⟨rfl, rfl, rfl, rfl⟩

/-- One unfolding step of find_in_lists when the recursive descent into
the found child's links errors: the error propagates. -/
theorem find_in_lists_step_error (s : Heap) (m fuel i : Nat) (nd : ListNode)
    (v : Nat) (blk : refc_ref) (e : CErr)
    (h1 : lookupL s.nodes i = some nd) (h2 : nd.value = some v) (h3 : ¬ v = m)
    (h4 : lookupL s.blocks v = some blk)
    (h5 : find_in_lists s m fuel blk.links = .error e) :
    find_in_lists s m (fuel + 1) (some i) = .error e := by
  simp only [find_in_lists, h1, h2, h4]
  rw [if_neg h3, h5]

/-- In heapSelf, block 0 carries the accepted self-edge 0→0, so the
cycle search for any other block starting from block 0's links revisits
the same list head forever: it exhausts every fuel bound. -/
theorem find_in_lists_self_diverges (f : Nat) :
    find_in_lists heapSelf 1 f (some 0) = .error .outOfFuel := by
  induction f with
  | zero => rfl
  | succ n ih =>
    exact find_in_lists_step_error heapSelf 1 n 0 ⟨none, some 0⟩ 0
      ⟨1, none, some 0⟩ .outOfFuel rfl rfl (by decide) rfl ih

/-- refc_link propagates an error of the cycle search. -/
theorem refc_link_find_error (s : Heap) (p c : Nat) (ok : Bool) (fuel : Nat)
    (cb : refc_ref) (e : CErr)
    (h1 : lookupL s.blocks c = some cb)
    (h2 : find_in_lists s p fuel cb.links = .error e) :
    refc_link s p c ok fuel = .error e := by
  simp only [refc_link, h1, h2]

/-- C9: contrary to the claim, the depth-first search of refc_link is
not terminating on every reachable link graph: because refc_link
accepts the self-edge 0→0 (see heapSelf, reached by two allocations and
one link), the subsequent call refc_link(1, 0) recurses through block
0's self-edge forever — for every fuel bound the search exhausts it. -/
theorem C9_cycle_search_diverges (fuel : Nat) :
    refc_link heapSelf 1 0 true fuel = .error .outOfFuel :=
  refc_link_find_error heapSelf 1 0 true fuel ⟨1, none, some 0⟩ .outOfFuel rfl
    (find_in_lists_self_diverges fuel)

/-- Inversion of a successful refc_link: it found no cycle, and the new
state prepends a node holding the child onto the parent's list. -/
theorem refc_link_ok_inv (s : Heap) (p c : Nat) (f1 : Nat) (s1 : Heap)
    (h : refc_link s p c true f1 = .ok (1, s1)) :
    ∃ cb pb, lookupL s.blocks c = some cb ∧
      find_in_lists s p f1 cb.links = .ok false ∧
      lookupL s.blocks p = some pb ∧
      s1 = { s with
             blocks := mapAt s.blocks p (fun bl => { bl with links := some s.nextNodeId })
             nodes := (s.nextNodeId, ⟨pb.links, some c⟩) :: s.nodes
             nextNodeId := s.nextNodeId + 1 } := by
  simp only [refc_link] at h
  split at h
  · exact (Except.noConfusion h)
  next cb hc =>
    split at h
    · exact (Except.noConfusion h)
    · simp at h
    next hf =>
      split at h
      · split at h
        · exact (Except.noConfusion h)
        next pb hp =>
          simp only [Except.ok.injEq, Prod.mk.injEq, true_and] at h
          exact ⟨cb, pb, hc, hf, hp, h.symm⟩
      · simp at h

/-- After refc_link(p, c) succeeds, the reverse call refc_link(c, p)
finds p's fresh head node holding c immediately and reports a cycle,
leaving the state unchanged. -/
theorem refc_link_then_reverse (s : Heap) (p c : Nat) (f1 : Nat) (s1 : Heap)
    (h : refc_link s p c true f1 = .ok (1, s1)) (ok : Bool) (f2 : Nat) :
    refc_link s1 c p ok (f2 + 1) = .ok (0, s1) := by
  obtain ⟨cb, pb, hc, hf, hp, hs⟩ := refc_link_ok_inv s p c f1 s1 h
  subst hs
  have hp1 : lookupL
      (mapAt s.blocks p (fun bl => { bl with links := some s.nextNodeId })) p =
      some { pb with links := some s.nextNodeId } := by
    rw [lookupL_mapAt_self, hp]
    rfl
  have hn1 : lookupL ((s.nextNodeId, (⟨pb.links, some c⟩ : ListNode)) :: s.nodes)
      s.nextNodeId = some ⟨pb.links, some c⟩ := by
    rw [lookupL_cons, if_pos rfl]
  simp only [refc_link, hp1, find_in_lists, hn1]
  simp

/-- With a successful malloc, refc_link reports 0 exactly when the
cycle search found the parent in the graph reachable from the child's
links list. -/
theorem refc_link_zero_iff (s : Heap) (p c : Nat) (fuel r : Nat) (s1 : Heap)
    (cb : refc_ref) (hc : lookupL s.blocks c = some cb)
    (h : refc_link s p c true fuel = .ok (r, s1)) :
    r = 0 ↔ find_in_lists s p fuel cb.links = .ok true := by
  simp only [refc_link, hc] at h
  split at h
  · exact (Except.noConfusion h)
  next hf =>
    simp only [Except.ok.injEq, Prod.mk.injEq] at h
    simp [← h.1, hf]
  next hf =>
    split at h
    · split at h
      · exact (Except.noConfusion h)
      · simp only [Except.ok.injEq, Prod.mk.injEq] at h
        simp [← h.1, hf]
    · rename_i hok
      exact absurd trivial hok

/-- C3: refc_link(p, c) with a successful malloc reports 0 exactly when
the depth-first search finds p in the graph reachable from c's links
list; after a successful link(p, c) the reverse link(c, p) is rejected
with the state unchanged; and in the concrete scenario with edges 0→1,
1→2, 3→2 the call link(2, 0) is rejected while link(3, 1) is accepted. -/
theorem C3_cycle_detection :
    (∀ (s : Heap) (p c : Nat) (f1 : Nat) (s1 : Heap),
      refc_link s p c true f1 = .ok (1, s1) →
      ∀ (ok : Bool) (f2 : Nat), refc_link s1 c p ok (f2 + 1) = .ok (0, s1)) ∧
    (∀ (s : Heap) (p c fuel r : Nat) (s1 : Heap) (cb : refc_ref),
      lookupL s.blocks c = some cb →
      refc_link s p c true fuel = .ok (r, s1) →
      (r = 0 ↔ find_in_lists s p fuel cb.links = .ok true)) ∧
    refc_link heap4 0 1 true 9 = .ok (1, linkS heap4 0 1) ∧
    refc_link (linkS heap4 0 1) 1 2 true 9 = .ok (1, linkS (linkS heap4 0 1) 1 2) ∧
    refc_link (linkS (linkS heap4 0 1) 1 2) 3 2 true 9 = .ok (1, heapChain) ∧
    refc_link heapChain 2 0 true 9 = .ok (0, heapChain) ∧
    refc_link heapChain 3 1 true 9 = .ok (1, linkS heapChain 3 1) :=
  ⟨refc_link_then_reverse, refc_link_zero_iff, rfl, rfl, rfl, rfl, rfl⟩

/-- C3 witness: linking 0→1 between two fresh blocks succeeds, and the
reverse link 1→0 is then rejected with the state unchanged. -/
theorem C3_cycle_detection_witness :
    refc_link heap2 0 1 true 9 = .ok (1, linkS heap2 0 1) ∧
    refc_link (linkS heap2 0 1) 1 0 true 5 = .ok (0, linkS heap2 0 1) :=
  ⟨rfl, C3_cycle_detection.1 heap2 0 1 9 (linkS heap2 0 1) rfl true 4⟩

/-- A rejected refc_link (result 0, whether cycle or malloc failure)
returns the state unchanged. -/
theorem refc_link_zero_state (s : Heap) (p c : Nat) (ok : Bool) (f : Nat)
    (s1 : Heap) (h : refc_link s p c ok f = .ok (0, s1)) : s1 = s := by
  simp only [refc_link] at h
  split at h
  · exact (Except.noConfusion h)
  · split at h
    · exact (Except.noConfusion h)
    · simp only [Except.ok.injEq, Prod.mk.injEq, true_and] at h
      exact h.symm
    · split at h
      · split at h
        · exact (Except.noConfusion h)
        · simp at h
      · simp only [Except.ok.injEq, Prod.mk.injEq, true_and] at h
        exact h.symm

/-- refc_link never changes any block's reference count, also when it
succeeds (it only rewrites the parent's links head). -/
theorem refc_link_preserves_counts (s : Heap) (p c : Nat) (ok : Bool)
    (f r : Nat) (s1 : Heap) (h : refc_link s p c ok f = .ok (r, s1)) :
    ∀ b, (lookupL s1.blocks b).map refc_ref.reference_count =
      (lookupL s.blocks b).map refc_ref.reference_count := by
  simp only [refc_link] at h
  split at h
  · exact (Except.noConfusion h)
  · split at h
    · exact (Except.noConfusion h)
    · simp only [Except.ok.injEq, Prod.mk.injEq] at h
      rw [← h.2]
      intro b
      rfl
    · split at h
      · split at h
        · exact (Except.noConfusion h)
        · simp only [Except.ok.injEq, Prod.mk.injEq] at h
          obtain ⟨-, h2⟩ := h
          subst h2
          intro b
          simp only [lookupL_mapAt]
          split
          · cases lookupL s.blocks b <;> rfl
          · rfl
      · simp only [Except.ok.injEq, Prod.mk.injEq] at h
        rw [← h.2]
        intro b
        rfl

/-- The scanning loop of refc_unlink touches only node values: blocks
and log are unchanged whatever it returns. -/
theorem unlinkScan_inv (s : Heap) (c : Nat) :
    ∀ (fuel : Nat) (hd : Option Nat) (r : Nat) (s1 : Heap),
      unlinkScan s c fuel hd = .ok (r, s1) →
      s1.blocks = s.blocks ∧ s1.log = s.log := by
  intro fuel
  induction fuel with
  | zero =>
    intro hd r s1 h
    cases hd with
    | none =>
      simp only [unlinkScan, Except.ok.injEq, Prod.mk.injEq] at h
      rw [← h.2]
      exact ⟨rfl, rfl⟩
    | some i => exact (Except.noConfusion h)
  | succ n ih =>
    intro hd r s1 h
    cases hd with
    | none =>
      simp only [unlinkScan, Except.ok.injEq, Prod.mk.injEq] at h
      rw [← h.2]
      exact ⟨rfl, rfl⟩
    | some i =>
      simp only [unlinkScan] at h
      split at h
      · exact (Except.noConfusion h)
      next nd hnd =>
        split at h
        · simp only [Except.ok.injEq, Prod.mk.injEq] at h
          rw [← h.2]
          exact ⟨rfl, rfl⟩
        · exact ih nd.next r s1 h

/-- refc_unlink leaves the blocks map (hence every reference count and
every links head) and the log unchanged. -/
theorem refc_unlink_preserves_blocks (s : Heap) (p c : Nat) (f r : Nat)
    (s1 : Heap) (h : refc_unlink s p c f = .ok (r, s1)) :
    s1.blocks = s.blocks ∧ s1.log = s.log := by
  simp only [refc_unlink] at h
  split at h
  · exact (Except.noConfusion h)
  · exact unlinkScan_inv s c f _ r s1 h

/-- C6: a rejected refc_link (cycle found or Link Node malloc failure,
both reported as 0) leaves the entire heap unchanged; and neither
refc_link nor refc_unlink ever changes any block's reference count,
also when they succeed (refc_unlink leaves the whole blocks map and the
log unchanged). -/
theorem C6_rejection_and_counts :
    (∀ (s : Heap) (p c : Nat) (ok : Bool) (f : Nat) (s1 : Heap),
      refc_link s p c ok f = .ok (0, s1) → s1 = s) ∧
    (∀ (s : Heap) (p c : Nat) (ok : Bool) (f r : Nat) (s1 : Heap),
      refc_link s p c ok f = .ok (r, s1) →
      ∀ b, (lookupL s1.blocks b).map refc_ref.reference_count =
        (lookupL s.blocks b).map refc_ref.reference_count) ∧
    (∀ (s : Heap) (p c : Nat) (f r : Nat) (s1 : Heap),
      refc_unlink s p c f = .ok (r, s1) →
      s1.blocks = s.blocks ∧ s1.log = s.log) :=
  ⟨refc_link_zero_state, refc_link_preserves_counts,
    refc_unlink_preserves_blocks⟩

/-- C6 witness: the rejected call link(2,0) on the chain heap leaves the
heap unchanged, and the accepted call link(3,1) preserves block 3's
reference count. -/
theorem C6_rejection_and_counts_witness :
    (refc_link heapChain 2 0 true 9 = .ok (0, heapChain) ∧
      heapChain = heapChain) ∧
    (refc_link heapChain 3 1 true 9 = .ok (1, linkS heapChain 3 1) ∧
      (lookupL (linkS heapChain 3 1).blocks 3).map refc_ref.reference_count =
        (lookupL heapChain.blocks 3).map refc_ref.reference_count) :=
  ⟨⟨rfl, C6_rejection_and_counts.1 heapChain 2 0 true 9 heapChain rfl⟩,
    ⟨rfl, C6_rejection_and_counts.2.1 heapChain 3 1 true 9 1
      (linkS heapChain 3 1) rfl 3⟩⟩

/-- Decrementing a positive counter below the wrap bound is plain
subtraction. -/
theorem mod_dec_eq (c : Nat) (h1 : 1 ≤ c) (h2 : c < W) :
    (c + (W - 1)) % W = c - 1 := by
  have hW : 0 < W := Nat.pos_pow_of_pos 64 (by decide)
  have he : c + (W - 1) = W + (c - 1) := by omega
  rw [he, Nat.add_mod_left]
  exact Nat.mod_eq_of_lt (by omega)

theorem chainCollect_none (s : Heap) (f : Nat) :
    chainCollect s f none = .ok [] := by cases f <;> rfl

theorem find_in_lists_none (s : Heap) (m f : Nat) :
    find_in_lists s m f none = .ok false := by cases f <;> rfl

theorem unlinkScan_none (s : Heap) (c f : Nat) :
    unlinkScan s c f none = .ok (0, s) := by cases f <;> rfl

/-- k retains on a live block add k to its count (while staying below
the wrap bound), touching nothing else observable. -/
theorem retainN_count (b : Nat) :
    ∀ (k : Nat) (t : Heap) (c : Nat) (dd : Option Nat) (ll : Option Nat),
      lookupL t.blocks b = some ⟨c, dd, ll⟩ → c + k < W →
      ∃ t1, retainN t b k = .ok t1 ∧
        lookupL t1.blocks b = some ⟨c + k, dd, ll⟩ ∧
        t1.log = t.log ∧ t1.nodes = t.nodes := by
  intro k
  induction k with
  | zero =>
    intro t c dd ll hb _
    exact ⟨t, rfl, by rw [Nat.add_zero]; exact hb, rfl, rfl⟩
  | succ k ih =>
    intro t c dd ll hb hlt
    have hr : refc_retain t b = .ok
        { t with
          blocks :=
            mapAt t.blocks b
              (fun x => { x with reference_count := (x.reference_count + 1) % W }) } := by
      simp only [refc_retain, hb]
    have hmod : (c + 1) % W = c + 1 := Nat.mod_eq_of_lt (by omega)
    have hb1 : lookupL
        (mapAt t.blocks b
          (fun x => { x with reference_count := (x.reference_count + 1) % W })) b =
        some ⟨c + 1, dd, ll⟩ := by
      rw [lookupL_mapAt_self, hb]
      simp [hmod]
    obtain ⟨t1, h1, h2, h3, h4⟩ := ih
      { t with
        blocks :=
          mapAt t.blocks b
            (fun x => { x with reference_count := (x.reference_count + 1) % W }) }
      (c + 1) dd ll hb1 (by omega)
    refine ⟨t1, ?_, ?_, h3, h4⟩
    · simp only [retainN, hr, h1]
    · rw [show c + 1 + k = c + (k + 1) from by omega] at h2
      exact h2
  
/-- k releases on a live block whose count exceeds k subtract k from
its count: no destructor call, no free, nothing else observable. -/
theorem releaseN_live (b fuel : Nat) :
    ∀ (k : Nat) (t : Heap) (c : Nat) (dd : Option Nat) (ll : Option Nat),
      lookupL t.blocks b = some ⟨c, dd, ll⟩ → c < W → k < c →
      ∃ t1, releaseN t b fuel k = .ok t1 ∧
        lookupL t1.blocks b = some ⟨c - k, dd, ll⟩ ∧
        t1.log = t.log ∧ t1.nodes = t.nodes := by
  intro k
  induction k with
  | zero =>
    intro t c dd ll hb _ _
    exact ⟨t, rfl, by rw [Nat.sub_zero]; exact hb, rfl, rfl⟩
  | succ k ih =>
    intro t c dd ll hb hW hk
    have hdec : (c + (W - 1)) % W = c - 1 := mod_dec_eq c (by omega) hW
    have hpos : 0 < c - 1 := by omega
    have hr : refc_release t b fuel = .ok
        { t with
          blocks :=
            mapAt t.blocks b (fun x => { x with reference_count := c - 1 }) } := by
      simp only [refc_release, hb, hdec]
      rw [if_pos hpos]
    have hb1 : lookupL
        (mapAt t.blocks b (fun x => { x with reference_count := c - 1 })) b =
        some ⟨c - 1, dd, ll⟩ := by
      rw [lookupL_mapAt_self, hb]
      rfl
    obtain ⟨t1, h1, h2, h3, h4⟩ := ih
      { t with
        blocks :=
          mapAt t.blocks b (fun x => { x with reference_count := c - 1 }) }
      (c - 1) dd ll hb1 (by omega) (by omega)
    refine ⟨t1, ?_, ?_, h3, h4⟩
    · simp only [releaseN, hr, h1]
    · rw [show c - 1 - k = c - (k + 1) from by omega] at h2
      exact h2

/-- The release that takes a block with an empty links list from count 1
to 0 destroys it: destructor event (if any), then the block free, block
gone from the heap. -/
theorem refc_release_last (t : Heap) (b fuel : Nat) (d : Option Nat)
    (hb : lookupL t.blocks b = some ⟨1, d, none⟩) :
    refc_release t b fuel = .ok
      { t with blocks := eraseKey t.blocks b
               nodes := removeKeys t.nodes []
               log := Event.freeBlock b ::
                 (([] : List Event) ++ ((d.map Event.dtorCall).toList ++ t.log)) } := by
  have h0 : (1 + (W - 1)) % W = 0 := by
    have : 1 + (W - 1) = W := by
      have hW : 0 < W := Nat.pos_pow_of_pos 64 (by decide)
      omega
    rw [this, Nat.mod_self]
  simp only [refc_release, hb, h0, chainCollect_none]
  rfl

/-- C1: allocate (with or without a destructor) followed by n-1 retains
and then n releases: after the first n-1 releases the block is still
live with count 1 and nothing has been logged (no destructor call, no
free); the n-th release logs the destructor call (exactly once, exactly
when a destructor was supplied) and then the free of the block, and the
block is gone from the heap. -/
theorem C1_destructor_once_on_nth_release (s : Heap) (sz : Nat)
    (d : Option Nat) (fuel n : Nat) (h1 : 1 ≤ n) (h2 : n < W) :
    ∃ t1 t2 t3,
      retainN (allocS s sz d) s.nextBlockId (n - 1) = .ok t1 ∧
      releaseN t1 s.nextBlockId fuel (n - 1) = .ok t2 ∧
      lookupL t2.blocks s.nextBlockId = some ⟨1, d, none⟩ ∧
      t2.log = s.log ∧
      refc_release t2 s.nextBlockId fuel = .ok t3 ∧
      t3.log = Event.freeBlock s.nextBlockId ::
        ((d.map Event.dtorCall).toList ++ s.log) ∧
      lookupL t3.blocks s.nextBlockId = none := by
  have hb0 : lookupL (allocS s sz d).blocks s.nextBlockId =
      some ⟨1, d, none⟩ := by
    simp [allocS, refc_allocate_dtor, lookupL_cons]
  obtain ⟨t1, hr1, hb1, hl1, -⟩ :=
    retainN_count s.nextBlockId (n - 1) (allocS s sz d) 1 d none hb0 (by omega)
  rw [show 1 + (n - 1) = n from by omega] at hb1
  obtain ⟨t2, hr2, hb2, hl2, -⟩ :=
    releaseN_live s.nextBlockId fuel (n - 1) t1 n d none hb1 h2 (by omega)
  rw [show n - (n - 1) = 1 from by omega] at hb2
  have hrel := refc_release_last t2 s.nextBlockId fuel d hb2
  refine ⟨t1, t2, _, hr1, hr2, hb2, ?_, hrel, ?_, ?_⟩
  · rw [hl2, hl1]
    exact rfl
  · simp only [List.nil_append]
    rw [hl2, hl1]
    exact rfl
  · simp [lookupL_eraseKey]

/-- C1 witness: from the empty heap, allocate with destructor 7, retain
twice, release twice (nothing happens), then the third release runs the
destructor once and frees the block. -/
theorem C1_destructor_once_on_nth_release_witness :
    (1 ≤ 3 ∧ 3 < W) ∧
    (∃ t1 t2 t3,
      retainN (allocS emptyHeap 512 (some 7)) emptyHeap.nextBlockId (3 - 1) = .ok t1 ∧
      releaseN t1 emptyHeap.nextBlockId 5 (3 - 1) = .ok t2 ∧
      lookupL t2.blocks emptyHeap.nextBlockId = some ⟨1, some 7, none⟩ ∧
      t2.log = emptyHeap.log ∧
      refc_release t2 emptyHeap.nextBlockId 5 = .ok t3 ∧
      t3.log = Event.freeBlock emptyHeap.nextBlockId ::
        (((some 7).map Event.dtorCall).toList ++ emptyHeap.log) ∧
      lookupL t3.blocks emptyHeap.nextBlockId = none) :=
  ⟨⟨by decide, by decide⟩,
    C1_destructor_once_on_nth_release emptyHeap 512 (some 7) 5 3
      (by decide) (by decide)⟩

/-- C7: for blocks p and c (no prior outgoing edges) linked exactly
once, the first refc_unlink returns 1 after tombstoning the single
matching node; an identical second refc_unlink returns 0 with the heap
unchanged; and a subsequent refc_link(p, c) succeeds, creating a fresh
Link Node in front while the old tombstoned node stays in the list. -/
theorem C7_unlink_twice_relink (s : Heap) (p c : Nat) (pb cb : refc_ref)
    (hp : lookupL s.blocks p = some pb) (hpl : pb.links = none)
    (hc : lookupL s.blocks c = some cb) (hcl : cb.links = none)
    (hpc : ¬ p = c) (f1 f2 f3 f4 : Nat) :
    ∃ t1 t2 t3,
      refc_link s p c true f1 = .ok (1, t1) ∧
      refc_unlink t1 p c (f2 + 1) = .ok (1, t2) ∧
      lookupL t2.nodes s.nextNodeId = some ⟨none, none⟩ ∧
      refc_unlink t2 p c (f3 + 1) = .ok (0, t2) ∧
      refc_link t2 p c true f4 = .ok (1, t3) ∧
      lookupL t3.nodes (s.nextNodeId + 1) = some ⟨some s.nextNodeId, some c⟩ ∧
      lookupL t3.nodes s.nextNodeId = some ⟨none, none⟩ := by
  obtain ⟨pcnt, pdtor, plinks⟩ := pb
  obtain ⟨ccnt, cdtor, clinks⟩ := cb
  simp only [refc_ref.links] at hpl hcl
  subst hpl
  subst hcl
  have hbp : lookupL
      (mapAt s.blocks p (fun bl => { bl with links := some s.nextNodeId })) p =
      some ⟨pcnt, pdtor, some s.nextNodeId⟩ := by
    rw [lookupL_mapAt_self, hp]
    rfl
  have hbc : lookupL
      (mapAt s.blocks p (fun bl => { bl with links := some s.nextNodeId })) c =
      some ⟨ccnt, cdtor, none⟩ := by
    rw [lookupL_mapAt_ne _ _ _ _ hpc, hc]
  have hn2 : lookupL
      (mapAt ((s.nextNodeId, (⟨none, some c⟩ : ListNode)) :: s.nodes)
        s.nextNodeId (fun nd => { nd with value := none })) s.nextNodeId =
      some ⟨none, none⟩ := by
    rw [mapAt_cons, if_pos rfl, lookupL_cons, if_pos rfl]
  refine ⟨
    { s with
      blocks := mapAt s.blocks p (fun bl => { bl with links := some s.nextNodeId })
      nodes := (s.nextNodeId, ⟨none, some c⟩) :: s.nodes
      nextNodeId := s.nextNodeId + 1 },
    { s with
      blocks := mapAt s.blocks p (fun bl => { bl with links := some s.nextNodeId })
      nodes :=
        mapAt ((s.nextNodeId, (⟨none, some c⟩ : ListNode)) :: s.nodes)
          s.nextNodeId (fun nd => { nd with value := none })
      nextNodeId := s.nextNodeId + 1 },
    { s with
      blocks :=
        mapAt (mapAt s.blocks p (fun bl => { bl with links := some s.nextNodeId }))
          p (fun bl => { bl with links := some (s.nextNodeId + 1) })
      nodes :=
        (s.nextNodeId + 1, ⟨some s.nextNodeId, some c⟩) ::
          mapAt ((s.nextNodeId, (⟨none, some c⟩ : ListNode)) :: s.nodes)
            s.nextNodeId (fun nd => { nd with value := none })
      nextNodeId := s.nextNodeId + 1 + 1 },
    ?_, ?_, hn2, ?_, ?_, ?_, ?_⟩
  · simp only [refc_link, hc, refc_ref.links, find_in_lists_none, hp]
    rfl
  · simp only [refc_unlink, hbp, refc_ref.links, unlinkScan, lookupL_cons]
    simp
  · simp only [refc_unlink, hbp, refc_ref.links, unlinkScan, hn2]
    simp [unlinkScan_none]
  · simp only [refc_link, hbc, refc_ref.links, find_in_lists_none, hbp]
    rfl
  · rw [lookupL_cons, if_pos rfl]
  · rw [lookupL_cons, if_neg (by omega), hn2]

/-- C7 witness: the link/unlink/unlink/relink sequence on two fresh
blocks, instantiating the theorem at heap2. -/
theorem C7_unlink_twice_relink_witness :
    (lookupL heap2.blocks 0 = some ⟨1, none, none⟩ ∧
      lookupL heap2.blocks 1 = some ⟨1, none, none⟩ ∧ ¬ (0 : Nat) = 1) ∧
    (∃ t1 t2 t3,
      refc_link heap2 0 1 true 2 = .ok (1, t1) ∧
      refc_unlink t1 0 1 (1 + 1) = .ok (1, t2) ∧
      lookupL t2.nodes heap2.nextNodeId = some ⟨none, none⟩ ∧
      refc_unlink t2 0 1 (1 + 1) = .ok (0, t2) ∧
      refc_link t2 0 1 true 2 = .ok (1, t3) ∧
      lookupL t3.nodes (heap2.nextNodeId + 1) =
        some ⟨some heap2.nextNodeId, some 1⟩ ∧
      lookupL t3.nodes heap2.nextNodeId = some ⟨none, none⟩) :=
  ⟨⟨rfl, rfl, by decide⟩,
    C7_unlink_twice_relink heap2 0 1 ⟨1, none, none⟩ ⟨1, none, none⟩
      rfl rfl rfl rfl (by decide) 2 1 1 2⟩

theorem chainOf_none (s : Heap) (f : Nat) : chainOf s f none = some [] := by
  cases f <;> rfl

/-- A chain predicate instance with enough fuel is computed by chainOf. -/
theorem isChain_chainOf (t : Heap) :
    ∀ (L : List (Nat × ListNode)) (h : Option Nat) (f : Nat),
      isChain t.nodes h L → L.length ≤ f → chainOf t f h = some L := by
  intro L
  induction L with
  | nil =>
    intro h f hc _
    simp only [isChain] at hc
    subst hc
    exact chainOf_none t f
  | cons e L ih =>
    intro h f hc hlen
    obtain ⟨i, n⟩ := e
    simp only [isChain] at hc
    obtain ⟨hh, hlook, hrest⟩ := hc
    subst hh
    cases f with
    | zero => simp at hlen
    | succ f =>
      have hlen1 : L.length ≤ f := by
        simp only [List.length_cons] at hlen
        omega
      have hr := ih n.next f hrest hlen1
      simp only [chainOf, hlook, hr]

/-- Scanning a chain none of whose nodes holds the child reports 0 with
the state unchanged. -/
theorem unlinkScan_no_match (t : Heap) (c : Nat) :
    ∀ (L : List (Nat × ListNode)) (h : Option Nat) (fuel : Nat),
      isChain t.nodes h L → (∀ e ∈ L, ¬ e.2.value = some c) → L.length ≤ fuel →
      unlinkScan t c fuel h = .ok (0, t) := by
  intro L
  induction L with
  | nil =>
    intro h fuel hc _ _
    simp only [isChain] at hc
    subst hc
    exact unlinkScan_none t c fuel
  | cons e L ih =>
    intro h fuel hc hv hlen
    obtain ⟨i, n⟩ := e
    simp only [isChain] at hc
    obtain ⟨hh, hlook, hrest⟩ := hc
    subst hh
    cases fuel with
    | zero => simp at hlen
    | succ fuel =>
      have hlen1 : L.length ≤ fuel := by
        simp only [List.length_cons] at hlen
        omega
      have hvn : ¬ n.value = some c := hv (i, n) (by simp)
      simp only [unlinkScan, hlook, if_neg hvn]
      exact ih n.next fuel hrest (fun e he => hv e (by simp [he])) hlen1

/-- Scanning a chain whose prefix is tombstoned and whose next node
holds the child tombstones exactly that node and reports 1. -/
theorem unlinkScan_first_match (t : Heap) (c : Nat) :
    ∀ (T : List (Nat × ListNode)) (h : Option Nat) (fuel i : Nat)
      (n : ListNode) (R : List (Nat × ListNode)),
      isChain t.nodes h (T ++ (i, n) :: R) → (∀ e ∈ T, e.2.value = none) →
      n.value = some c → T.length < fuel →
      unlinkScan t c fuel h = .ok (1,
        { t with nodes := mapAt t.nodes i (fun nd => { nd with value := none }) }) := by
  intro T
  induction T with
  | nil =>
    intro h fuel i n R hc _ hv hlen
    simp only [List.nil_append, isChain] at hc
    obtain ⟨hh, hlook, -⟩ := hc
    subst hh
    cases fuel with
    | zero => omega
    | succ fuel => simp only [unlinkScan, hlook, if_pos hv]
  | cons e T ih =>
    intro h fuel i n R hc hv hvn hlen
    obtain ⟨j, m⟩ := e
    simp only [List.cons_append, isChain] at hc
    obtain ⟨hh, hlook, hrest⟩ := hc
    subst hh
    cases fuel with
    | zero => omega
    | succ fuel =>
      have hm0 : m.value = none := hv (j, m) (by simp)
      have hm : ¬ m.value = some c := by
        rw [hm0]
        simp
      simp only [unlinkScan, hlook, if_neg hm]
      refine ih m.next fuel i n R hrest (fun e he => hv e (by simp [he])) hvn ?_
      simp only [List.length_cons] at hlen
      omega

/-- Pushing a node with an identifier absent from a chain preserves the
chain. -/
theorem isChain_consNode (ns : List (Nat × ListNode)) (nid : Nat) (x : ListNode) :
    ∀ (L : List (Nat × ListNode)) (h : Option Nat),
      isChain ns h L → (∀ e ∈ L, ¬ e.1 = nid) →
      isChain ((nid, x) :: ns) h L := by
  intro L
  induction L with
  | nil => intro h hc _; exact hc
  | cons e L ih =>
    intro h hc hne
    obtain ⟨i, n⟩ := e
    simp only [isChain] at hc ⊢
    obtain ⟨hh, hlook, hrest⟩ := hc
    refine ⟨hh, ?_, ih n.next hrest (fun e he => hne e (by simp [he]))⟩
    have hni : ¬ nid = i := fun hcontra => hne (i, n) (by simp) hcontra.symm
    rw [lookupL_cons, if_neg hni]
    exact hlook

/-- A value-only rewrite of one node identifier maps a chain to the
correspondingly rewritten chain. -/
theorem isChain_mapAt (ns : List (Nat × ListNode)) (i2 : Nat) (g : ListNode → ListNode)
    (hg : ∀ nd, (g nd).next = nd.next) :
    ∀ (L : List (Nat × ListNode)) (h : Option Nat),
      isChain ns h L →
      isChain (mapAt ns i2 g) h
        (L.map (fun e => if e.1 = i2 then (e.1, g e.2) else e)) := by
  intro L
  induction L with
  | nil => intro h hc; exact hc
  | cons e L ih =>
    intro h hc
    obtain ⟨i, n⟩ := e
    simp only [isChain] at hc
    obtain ⟨hh, hlook, hrest⟩ := hc
    by_cases hii : i = i2
    · subst hii
      rw [List.map_cons, if_pos (show ((i : Nat), n).1 = i from rfl)]
      simp only [isChain]
      refine ⟨hh, ?_, ?_⟩
      · show lookupL (mapAt ns i g) i = some (g n)
        rw [lookupL_mapAt_self, hlook]
        rfl
      · show isChain _ (g n).next _
        rw [hg n]
        exact ih n.next hrest
    · rw [List.map_cons, if_neg (show ¬ ((i : Nat), n).1 = i2 from hii)]
      simp only [isChain]
      refine ⟨hh, ?_, ih n.next hrest⟩
      show lookupL (mapAt ns i2 g) i = some n
      rw [lookupL_mapAt_ne _ _ _ _ (fun hcontra => hii hcontra.symm)]
      exact hlook

/-- The conditional rewrite fixes every entry whose key differs. -/
theorem map_cond_id (i2 : Nat) (g : ListNode → ListNode) :
    ∀ (L : List (Nat × ListNode)), (∀ e ∈ L, ¬ e.1 = i2) →
      L.map (fun e => if e.1 = i2 then (e.1, g e.2) else e) = L := by
  intro L
  induction L with
  | nil => intro _; rfl
  | cons e L ih =>
    intro hne
    simp only [List.map_cons, if_neg (hne e (by simp))]
    rw [ih (fun x hx => hne x (by simp [hx]))]

/-- k refc_link calls of the same acyclic pair all succeed, prepending
k fresh nodes holding the child onto the parent's chain. -/
theorem linkPhase (p c : Nat) (hpc : ¬ p = c) :
    ∀ (k : Nat) (t : Heap) (L : List (Nat × ListNode)) (pbt cbt : refc_ref)
      (lf : Nat),
      lookupL t.blocks p = some pbt →
      lookupL t.blocks c = some cbt →
      cbt.links = none →
      isChain t.nodes pbt.links L →
      ((L.map Prod.fst).Nodup) →
      (∀ e ∈ L, e.1 < t.nextNodeId) →
      ∃ tK pbK L1,
        linkN t p c lf k = .ok (List.replicate k 1, tK) ∧
        lookupL tK.blocks p = some pbK ∧
        lookupL tK.blocks c = some cbt ∧
        isChain tK.nodes pbK.links (L1 ++ L) ∧
        L1.length = k ∧
        (∀ e ∈ L1, e.2.value = some c) ∧
        (((L1 ++ L).map Prod.fst).Nodup) ∧
        (∀ e ∈ L1 ++ L, e.1 < tK.nextNodeId) := by
  intro k
  induction k with
  | zero =>
    intro t L pbt cbt lf hp hc hcl hch hnd hbnd
    exact ⟨t, pbt, [], rfl, hp, hc, hch, rfl, by simp, hnd, hbnd⟩
  | succ k ih =>
    intro t L pbt cbt lf hp hc hcl hch hnd hbnd
    have hff : find_in_lists t p lf cbt.links = .ok false := by
      rw [hcl]
      exact find_in_lists_none t p lf
    have hstep : refc_link t p c true lf = .ok (1,
        { t with
          blocks :=
            mapAt t.blocks p (fun bl => { bl with links := some t.nextNodeId })
          nodes := (t.nextNodeId, ⟨pbt.links, some c⟩) :: t.nodes
          nextNodeId := t.nextNodeId + 1 }) := by
      simp only [refc_link, hc, hff, hp]
      simp
    have hp1 : lookupL
        (mapAt t.blocks p (fun bl => { bl with links := some t.nextNodeId })) p =
        some { pbt with links := some t.nextNodeId } := by
      rw [lookupL_mapAt_self, hp]
      rfl
    have hc1 : lookupL
        (mapAt t.blocks p (fun bl => { bl with links := some t.nextNodeId })) c =
        some cbt := by
      rw [lookupL_mapAt_ne _ _ _ _ hpc]
      exact hc
    have hfresh : ∀ e ∈ L, ¬ e.1 = t.nextNodeId := by
      intro e he heq
      have := hbnd e he
      omega
    have hch1 : isChain ((t.nextNodeId, (⟨pbt.links, some c⟩ : ListNode)) :: t.nodes)
        (some t.nextNodeId) ((t.nextNodeId, (⟨pbt.links, some c⟩ : ListNode)) :: L) := by
      simp only [isChain]
      refine ⟨trivial, ?_, ?_⟩
      · rw [lookupL_cons, if_pos rfl]
      · exact isChain_consNode t.nodes t.nextNodeId ⟨pbt.links, some c⟩ L
          pbt.links hch hfresh
    have hnd1 : (((t.nextNodeId, (⟨pbt.links, some c⟩ : ListNode)) :: L).map
        Prod.fst).Nodup := by
      simp only [List.map_cons]
      rw [List.nodup_cons]
      refine ⟨?_, hnd⟩
      intro hmem
      obtain ⟨e, he, heq⟩ := List.mem_map.mp hmem
      exact hfresh e he heq
    have hbnd1 : ∀ e ∈ (t.nextNodeId, (⟨pbt.links, some c⟩ : ListNode)) :: L,
        e.1 < t.nextNodeId + 1 := by
      intro e he
      rcases List.mem_cons.mp he with h1 | h2
      · rw [h1]
        exact Nat.lt_succ_self _
      · have := hbnd e h2
        omega
    obtain ⟨tK, pbK, L1, hlink, hpK, hcK, hchK, hlen, hval, hndK, hbndK⟩ :=
      ih { t with
            blocks :=
              mapAt t.blocks p (fun bl => { bl with links := some t.nextNodeId })
            nodes := (t.nextNodeId, ⟨pbt.links, some c⟩) :: t.nodes
            nextNodeId := t.nextNodeId + 1 }
        ((t.nextNodeId, ⟨pbt.links, some c⟩) :: L)
        { pbt with links := some t.nextNodeId } cbt lf hp1 hc1 hcl hch1 hnd1 hbnd1
    refine ⟨tK, pbK, L1 ++ [(t.nextNodeId, ⟨pbt.links, some c⟩)],
      ?_, hpK, hcK, ?_, ?_, ?_, ?_, ?_⟩
    · simp only [linkN, hstep, hlink]
      rw [List.replicate_succ]
    · rw [List.append_assoc]
      exact hchK
    · simp [hlen]
    · intro e he
      rcases List.mem_append.mp he with h1 | h2
      · exact hval e h1
      · simp only [List.mem_singleton] at h2
        rw [h2]
    · rw [List.append_assoc]
      exact hndK
    · intro e he
      rw [List.append_assoc] at he
      exact hbndK e he

/-- With a tombstoned prefix T and matching suffix R on the parent's
chain, |R| + 1 refc_unlink calls report removed |R| times (tombstoning
the nodes of R one per call, first match from the head) and then
not_found once; the nodes all stay in the chain. -/
theorem unlinkPhase (p c : Nat) :
    ∀ (R : List (Nat × ListNode)) (t : Heap) (T : List (Nat × ListNode))
      (h : Option Nat) (pbt : refc_ref) (fuel : Nat),
      lookupL t.blocks p = some pbt → pbt.links = h →
      isChain t.nodes h (T ++ R) →
      (((T ++ R).map Prod.fst).Nodup) →
      (∀ e ∈ T, e.2.value = none) →
      (∀ e ∈ R, e.2.value = some c) →
      (T ++ R).length < fuel →
      ∃ tF, unlinkN t p c fuel (R.length + 1) =
          .ok (List.replicate R.length 1 ++ [0], tF) ∧
        tF.blocks = t.blocks ∧
        isChain tF.nodes h (T ++ R.map tombstoned) := by
  intro R
  induction R with
  | nil =>
    intro t T h pbt fuel hp hpl hch hnd hvT hvR hlen
    have hscan : unlinkScan t c fuel h = .ok (0, t) := by
      refine unlinkScan_no_match t c (T ++ []) h fuel hch ?_ (by omega)
      intro e he
      rw [hvT e (by simpa using he)]
      simp
    have hu : refc_unlink t p c fuel = .ok (0, t) := by
      simp only [refc_unlink, hp, hpl, hscan]
    refine ⟨t, ?_, rfl, hch⟩
    simp only [List.length_nil, unlinkN, hu]
    rfl
  | cons en R ih =>
    obtain ⟨i, n⟩ := en
    intro t T h pbt fuel hp hpl hch hnd hvT hvR hlen
    have hndkeys : (T.map Prod.fst ++ i :: R.map Prod.fst).Nodup := by
      simpa using hnd
    have hiT : ∀ e ∈ T, ¬ e.1 = i := by
      intro e he heq
      have hdisj := List.disjoint_of_nodup_append hndkeys
      have h1 : e.1 ∈ T.map Prod.fst := List.mem_map_of_mem Prod.fst he
      have h2 : e.1 ∈ i :: R.map Prod.fst := by
        rw [heq]
        exact List.mem_cons_self _ _
      exact hdisj h1 h2
    have hiR : ∀ e ∈ R, ¬ e.1 = i := by
      intro e he heq
      have hnd2 : (i :: R.map Prod.fst).Nodup := hndkeys.of_append_right
      rw [List.nodup_cons] at hnd2
      refine hnd2.1 ?_
      rw [← heq]
      exact List.mem_map_of_mem Prod.fst he
    have hvn : n.value = some c := hvR (i, n) (by simp)
    have hscan := unlinkScan_first_match t c T h fuel i n R hch hvT hvn
      (by simp only [List.length_append, List.length_cons] at hlen; omega)
    have hu1 : refc_unlink t p c fuel = .ok (1,
        { t with nodes := mapAt t.nodes i (fun nd => { nd with value := none }) }) := by
      simp only [refc_unlink, hp, hpl, hscan]
    have hmap := isChain_mapAt t.nodes i (fun nd => { nd with value := none })
      (fun nd => rfl) (T ++ (i, n) :: R) h hch
    rw [List.map_append, List.map_cons] at hmap
    rw [map_cond_id i (fun nd => { nd with value := none }) T hiT,
      map_cond_id i (fun nd => { nd with value := none }) R hiR] at hmap
    simp at hmap
    obtain ⟨tF, hun, hblocks, hchF⟩ := ih
      { t with nodes := mapAt t.nodes i (fun nd => { nd with value := none }) }
      (T ++ [(i, (⟨n.next, none⟩ : ListNode))]) h pbt fuel
      hp hpl
      (by rw [List.append_assoc]; exact hmap)
      (by
        have hkeys : ((T ++ [(i, (⟨n.next, none⟩ : ListNode))]) ++ R).map Prod.fst =
            (T ++ (i, n) :: R).map Prod.fst := by
          simp
        rw [hkeys]
        exact hnd)
      (by
        intro e he
        rcases List.mem_append.mp he with h1 | h2
        · exact hvT e h1
        · simp only [List.mem_singleton] at h2
          rw [h2])
      (fun e he => hvR e (by simp [he]))
      (by
        simp only [List.length_append, List.length_cons, List.length_nil]
          at hlen ⊢
        omega)
    refine ⟨tF, ?_, ?_, ?_⟩
    · simp only [List.length_cons]
      conv_lhs => rw [unlinkN]
      rw [hu1]
      simp only [hun, List.replicate_succ, List.cons_append]
    · exact hblocks
    · simp only [List.map_cons]
      rw [List.append_assoc] at hchF
      exact hchF

/-- C10: refc_link performs no duplicate-edge check: for a pair whose
linking closes no cycle (parent and child have no prior outgoing
edges, distinct blocks), k successive refc_link(p, c) calls all report
1, leaving p's chain as k distinct nodes all holding c; then
refc_unlink(p, c) reports removed exactly k times (tombstoning one node
per call) before reporting not_found, with every node still in the
chain (no structural removal). -/
theorem C10_duplicate_links_and_unlinks (s : Heap) (p c : Nat)
    (pb cb : refc_ref)
    (hp : lookupL s.blocks p = some pb) (hpl : pb.links = none)
    (hc : lookupL s.blocks c = some cb) (hcl : cb.links = none)
    (hpc : ¬ p = c) (k lf : Nat) :
    ∃ tK pbK L tF,
      linkN s p c lf k = .ok (List.replicate k 1, tK) ∧
      lookupL tK.blocks p = some pbK ∧
      chainOf tK (k + 1) pbK.links = some L ∧
      L.length = k ∧
      (∀ e ∈ L, e.2.value = some c) ∧
      ((L.map Prod.fst).Nodup) ∧
      unlinkN tK p c (k + 1) (k + 1) = .ok (List.replicate k 1 ++ [0], tF) ∧
      tF.blocks = tK.blocks ∧
      chainOf tF (k + 1) pbK.links = some (L.map tombstoned) := by
  obtain ⟨tK, pbK, L1, hlink, hpK, hcK, hchK, hlen, hval, hndK, hbndK⟩ :=
    linkPhase p c hpc k s [] pb cb lf hp hc hcl hpl (by simp) (by simp)
  rw [List.append_nil] at hchK
  have hndK1 : (L1.map Prod.fst).Nodup := by
    rw [List.append_nil] at hndK
    exact hndK
  obtain ⟨tF, hun, hblocks, hchF⟩ :=
    unlinkPhase p c L1 tK [] pbK.links pbK (k + 1) hpK rfl hchK hndK1
      (by simp) hval
      (by simp only [List.nil_append, hlen]; omega)
  rw [hlen] at hun
  refine ⟨tK, pbK, L1, tF, hlink, hpK, ?_, hlen, hval, hndK1, hun, hblocks, ?_⟩
  · refine isChain_chainOf tK L1 pbK.links (k + 1) hchK ?_
    rw [hlen]
    omega
  · refine isChain_chainOf tF (L1.map tombstoned) pbK.links (k + 1) hchF ?_
    rw [List.length_map, hlen]
    omega

/-- C10 witness: two links of the pair (0, 1) on fresh blocks both
succeed and two unlinks then succeed before a third reports
not_found. -/
theorem C10_duplicate_links_and_unlinks_witness :
    (lookupL heap2.blocks 0 = some ⟨1, none, none⟩ ∧
      lookupL heap2.blocks 1 = some ⟨1, none, none⟩ ∧ ¬ (0 : Nat) = 1) ∧
    (∃ tK pbK L tF,
      linkN heap2 0 1 3 2 = .ok (List.replicate 2 1, tK) ∧
      lookupL tK.blocks 0 = some pbK ∧
      chainOf tK (2 + 1) pbK.links = some L ∧
      L.length = 2 ∧
      (∀ e ∈ L, e.2.value = some 1) ∧
      ((L.map Prod.fst).Nodup) ∧
      unlinkN tK 0 1 (2 + 1) (2 + 1) = .ok (List.replicate 2 1 ++ [0], tF) ∧
      tF.blocks = tK.blocks ∧
      chainOf tF (2 + 1) pbK.links = some (L.map tombstoned)) :=
  ⟨⟨rfl, rfl, by decide⟩,
    C10_duplicate_links_and_unlinks heap2 0 1 ⟨1, none, none⟩ ⟨1, none, none⟩
      rfl rfl rfl rfl (by decide) 2 3⟩
